import Mathlib

/-!
Shallow embedding of `src/single-linked-list/single-linked-list.h`
(`template <typename Type> class SingleLinkedList`).

Heap model.  The C++ list consists of a sentinel node `head_` whose
`next_node` pointer starts a null-terminated chain of heap nodes, plus a
cached counter `size_` (a `size_t`).  In the embedding the state is:
  * `head_ : List α` — the values of the real nodes reachable from the
    sentinel's `next_node` link, in chain order (`[]` ↔ `head_.next_node
    == nullptr`);
  * `size_ : Nat` — the cached counter, kept as a separate field precisely
    so that "cached size = number of reachable nodes" is a statement, not
    a tautology.

Iterator model.  A `BasicIterator` wraps a `Node*`.  For a fixed list a
pointer is either null (`end()`), the sentinel (`before_begin()`), or the
k-th real node.  We represent a possibly-null node pointer as
`Option Nat`: `none` = null/end, `some 0` = sentinel, `some k` (k ≥ 1) =
k-th real node of the chain.  A position argument `p : Nat` to
`InsertAfter`/`EraseAfter` is a non-null pointer (the C++ functions
`assert(pos.node_ != nullptr)`); `p ≤ head_.length` says the pointer is a
node of this list.
-/

structure SingleLinkedList (α : Type) where
  head_ : List α
  size_ : Nat
deriving Repr, DecidableEq

namespace SingleLinkedList

variable {α : Type}

/-- `SingleLinkedList() : head_(), size_(0)` — the default constructor. -/
def new : SingleLinkedList α := ⟨[], 0⟩

/-- `GetSize()` returns the cached `size_`. -/
def GetSize (l : SingleLinkedList α) : Nat := l.size_

/-- `IsEmpty()` returns `size_ == 0`. -/
def IsEmpty (l : SingleLinkedList α) : Bool := l.size_ == 0

/-- `PushFront(value)`: `new Node(value, head_.next_node)` becomes the new
first node; `++size_`. -/
def PushFront (l : SingleLinkedList α) (value : α) : SingleLinkedList α :=
  ⟨value :: l.head_, l.size_ + 1⟩

/-- The loop of `Reverse()`: `prev` starts null; while `current` is
non-null the current node is relinked onto `prev`.  First argument is the
chain from `current`, second the chain already hanging off `prev`. -/
def reverseLoop : List α → List α → List α
  | [], prev => prev
  | x :: rest, prev => reverseLoop rest (x :: prev)

/-- `Reverse()`: runs the relinking loop and stores the result in
`head_.next_node`; `size_` is untouched. -/
def Reverse (l : SingleLinkedList α) : SingleLinkedList α :=
  ⟨reverseLoop l.head_ [], l.size_⟩

/-- `SingleLinkedList(std::initializer_list<Type>)`: `PushFront` of each
element in order, then `Reverse()`.  (`size_` starts from its member
initializer `0`.) -/
def ofInitList (values : List α) : SingleLinkedList α :=
  Reverse (values.foldl (fun l el => PushFront l el) new)

/-- The loop of the copy constructor: walks `other`'s chain and appends a
fresh `new Node(current->value, nullptr)` through the tail pointer
`last_ptr`, i.e. rebuilds the chain in traversal order. -/
def copyChain : List α → List α
  | [] => []
  | x :: rest => x :: copyChain rest

/-- `SingleLinkedList(const SingleLinkedList& other)`: deep-copies the
chain in order, then `size_ = other.size_`. -/
def copyCtor (other : SingleLinkedList α) : SingleLinkedList α :=
  ⟨copyChain other.head_, other.size_⟩

/-- `swap(other)`: `std::swap` of the two `head_.next_node` links and of
the two `size_` fields.  Returns the pair (this, other) after the swap. -/
def swap (l other : SingleLinkedList α) :
    SingleLinkedList α × SingleLinkedList α :=
  (⟨other.head_, other.size_⟩, ⟨l.head_, l.size_⟩)

/-- `operator=(const SingleLinkedList& rhs)`: copy-and-swap — `this`
becomes a deep copy of `rhs`.  (The `this != &rhs` guard compares object
identity; when the operands are the same object the skipped branch leaves
`this` with precisely these contents too, so the value-level result is the
same in both branches.) -/
def operatorAssign (_lhs rhs : SingleLinkedList α) : SingleLinkedList α :=
  ⟨copyChain rhs.head_, rhs.size_⟩

/-- `Clear()`: deletes every node of the chain, sets `head_.next_node =
nullptr` and `size_ = 0`. -/
def Clear (_l : SingleLinkedList α) : SingleLinkedList α := ⟨[], 0⟩

/-- `PopFront()`: `if (head_.next_node != nullptr)` unlink and delete the
first node and `--size_`; otherwise nothing happens (no assert — the
function is `noexcept` and simply returns). -/
def PopFront (l : SingleLinkedList α) : SingleLinkedList α :=
  match l with
  | ⟨[], _⟩ => l
  | ⟨_ :: rest, s⟩ => ⟨rest, s - 1⟩

/-- The relink performed by `InsertAfter` at a non-null position `p`
(`some p` in iterator terms): the new node is spliced in right after node
`p` (`p = 0` is the sentinel).  Positions past the last node do not exist
as pointers; the `[]`/`p+1` equation is a junk value never reached under
the validity hypothesis `p ≤ length`. -/
def insertAfterChain : List α → Nat → α → List α
  | xs, 0, v => v :: xs
  | [], _ + 1, _ => []
  | x :: xs, p + 1, v => x :: insertAfterChain xs p v

/-- `InsertAfter(pos, value)`: asserts `pos.node_ != nullptr`, splices
`new Node(value, pos.node_->next_node)` after `pos`, `++size_`, and
returns `Iterator(new_node)` — the node now at position `p + 1`. -/
def InsertAfter (l : SingleLinkedList α) (p : Nat) (value : α) :
    SingleLinkedList α × Nat :=
  (⟨insertAfterChain l.head_ p value, l.size_ + 1⟩, p + 1)

/-- The relink performed by `EraseAfter` when `pos.node_->next_node` is
non-null: node `p`'s link skips its successor.  When node `p` has no
successor the chain is unchanged (handled by the caller's `if`). -/
def eraseAfterChain : List α → Nat → List α
  | [], _ => []
  | _ :: xs, 0 => xs
  | x :: xs, p + 1 => x :: eraseAfterChain xs p

/-- `Iterator(node p's next_node)` in a chain: `some (p+1)` when node
`p + 1` exists, otherwise the null iterator `none` (= `end()`). -/
def iterAfter (chain : List α) (p : Nat) : Option Nat :=
  if p < chain.length then some (p + 1) else none

/-- `EraseAfter(pos)`: asserts `pos.node_ != nullptr`; if
`pos.node_->next_node` (node `p + 1`, present iff `p < length`) is
non-null it is unlinked and deleted and `--size_`; the function returns
`Iterator(pos.node_->next_node)` read back after the conditional. -/
def EraseAfter (l : SingleLinkedList α) (p : Nat) :
    SingleLinkedList α × Option Nat :=
  if p < l.head_.length then
    let chain := eraseAfterChain l.head_ p
    (⟨chain, l.size_ - 1⟩, iterAfter chain p)
  else
    (l, iterAfter l.head_ p)

/-- The element sequence produced by iterating from `begin()`
(`Iterator(head_.next_node)`) to `end()` (`Iterator(nullptr)`): each `++`
follows one `next_node` link and `*` reads the node's value, so the
traversal yields the chain values in order. -/
def toList (l : SingleLinkedList α) : List α := l.head_

/-- The size invariant of the spec: the cached `size_` equals the number
of real nodes reachable from the sentinel. -/
def Inv (l : SingleLinkedList α) : Prop := l.size_ = l.head_.length

instance (l : SingleLinkedList α) : Decidable (Inv l) := by
  unfold Inv; infer_instance

/-- The loop of `operator==` after the size check: advance both iterators
while neither is `end()`, returning `false` at the first pair of values
with `*it1 != *it2`; when either iterator reaches `end()` return `true`. -/
def chainEqLoop [DecidableEq α] : List α → List α → Bool
  | x :: xs, y :: ys => if x ≠ y then false else chainEqLoop xs ys
  | _, _ => true

/-- `operator==`: `false` if `GetSize()` differs, otherwise the element
loop. -/
def operatorEq [DecidableEq α] (lhs rhs : SingleLinkedList α) : Bool :=
  if lhs.GetSize ≠ rhs.GetSize then false
  else chainEqLoop lhs.head_ rhs.head_

/-- `operator!=`: `!(lhs == rhs)`. -/
def operatorNe [DecidableEq α] (lhs rhs : SingleLinkedList α) : Bool :=
  !(operatorEq lhs rhs)

/-- `std::lexicographical_compare(f1, l1, f2, l2)` over the two chains:
while both ranges are non-empty, `*f1 < *f2` decides `true`, `*f2 < *f1`
decides `false`, else advance both; at the end the result is "range 1
exhausted and range 2 not". -/
def lexCompare [LinearOrder α] : List α → List α → Bool
  | [], [] => false
  | [], _ :: _ => true
  | _ :: _, [] => false
  | x :: xs, y :: ys =>
    if x < y then true else if y < x then false else lexCompare xs ys

/-- `operator<`: `lexicographical_compare` over the element ranges. -/
def operatorLt [LinearOrder α] (lhs rhs : SingleLinkedList α) : Bool :=
  lexCompare lhs.head_ rhs.head_

/-- `operator<=`: `!(rhs < lhs)`. -/
def operatorLe [LinearOrder α] (lhs rhs : SingleLinkedList α) : Bool :=
  !(operatorLt rhs lhs)

/-- `operator>`: `rhs < lhs`. -/
def operatorGt [LinearOrder α] (lhs rhs : SingleLinkedList α) : Bool :=
  operatorLt rhs lhs

/-- `operator>=`: `!(lhs < rhs)`. -/
def operatorGe [LinearOrder α] (lhs rhs : SingleLinkedList α) : Bool :=
  !(operatorLt lhs rhs)

end SingleLinkedList

namespace SingleLinkedList

variable {α : Type}

/-! ### Basic lemmas about the chain operations -/

theorem reverseLoop_eq (xs : List α) :
    ∀ prev, reverseLoop xs prev = xs.reverse ++ prev := by
  induction xs with
  | nil => intro prev; simp [reverseLoop]
  | cons x rest ih =>
    intro prev
    simp [reverseLoop, ih (x :: prev)]

theorem Reverse_head (l : SingleLinkedList α) :
    (Reverse l).head_ = l.head_.reverse := by
  simp [Reverse, reverseLoop_eq]

theorem foldl_PushFront (xs : List α) :
    ∀ (c : List α) (s : Nat),
      xs.foldl (fun l el => PushFront l el) ⟨c, s⟩ =
        ⟨xs.reverse ++ c, s + xs.length⟩ := by
  induction xs with
  | nil => intro c s; simp
  | cons x rest ih =>
    intro c s
    have h1 : PushFront ⟨c, s⟩ x = ⟨x :: c, s + 1⟩ := rfl
    simp only [List.foldl_cons, h1, ih (x :: c) (s + 1), List.reverse_cons,
      List.length_cons, mk.injEq]
    constructor
    · simp
    · omega

theorem ofInitList_eq (xs : List α) :
    ofInitList xs = ⟨xs, xs.length⟩ := by
  unfold ofInitList new
  rw [foldl_PushFront xs [] 0]
  simp [Reverse, reverseLoop_eq]

theorem copyChain_eq (xs : List α) : copyChain xs = xs := by
  induction xs with
  | nil => rfl
  | cons x rest ih => simp [copyChain, ih]

theorem insertAfterChain_length (xs : List α) :
    ∀ p v, p ≤ xs.length →
      (insertAfterChain xs p v).length = xs.length + 1 := by
  induction xs with
  | nil =>
    intro p v hp
    have hp0 : p = 0 := by simpa using hp
    subst hp0
    rfl
  | cons x rest ih =>
    intro p v hp
    cases p with
    | zero => rfl
    | succ q =>
      simp only [insertAfterChain, List.length_cons]
      rw [ih q v (by simpa using hp)]

theorem eraseAfterChain_length (xs : List α) :
    ∀ p, p < xs.length → (eraseAfterChain xs p).length = xs.length - 1 := by
  induction xs with
  | nil => intro p hp; simp at hp
  | cons x rest ih =>
    intro p hp
    cases p with
    | zero => simp [eraseAfterChain]
    | succ q =>
      have hq : q < rest.length := by simpa using hp
      simp only [eraseAfterChain, List.length_cons, ih q hq]
      omega

theorem eraseAfterChain_eq_take_drop (xs : List α) :
    ∀ p, p < xs.length →
      eraseAfterChain xs p = xs.take p ++ xs.drop (p + 1) := by
  induction xs with
  | nil => intro p hp; simp at hp
  | cons x rest ih =>
    intro p hp
    cases p with
    | zero => simp [eraseAfterChain]
    | succ q =>
      have hq : q < rest.length := by simpa using hp
      simp [eraseAfterChain, ih q hq]

theorem eraseAfterChain_insertAfterChain (xs : List α) :
    ∀ p v, p ≤ xs.length →
      eraseAfterChain (insertAfterChain xs p v) p = xs := by
  induction xs with
  | nil =>
    intro p v hp
    have hp0 : p = 0 := by simpa using hp
    subst hp0
    rfl
  | cons x rest ih =>
    intro p v hp
    cases p with
    | zero => rfl
    | succ q =>
      simp only [insertAfterChain, eraseAfterChain]
      rw [ih q v (by simpa using hp)]

theorem chainEqLoop_iff [DecidableEq α] (xs : List α) :
    ∀ ys : List α, xs.length = ys.length →
      (chainEqLoop xs ys = true ↔ xs = ys) := by
  induction xs with
  | nil =>
    intro ys h
    cases ys with
    | nil => simp [chainEqLoop]
    | cons y ys => simp at h
  | cons x xs ih =>
    intro ys h
    cases ys with
    | nil => simp at h
    | cons y ys =>
      have hlen : xs.length = ys.length := by simpa using h
      by_cases hxy : x = y
      · subst hxy
        simpa [chainEqLoop] using ih ys hlen
      · simp [chainEqLoop, hxy]

theorem lex_cons_cons_iff [LinearOrder α] {x y : α} {xs ys : List α} :
    List.Lex (· < ·) (x :: xs) (y :: ys) ↔
      x < y ∨ (x = y ∧ List.Lex (· < ·) xs ys) := by
  constructor
  · intro h
    cases h with
    | cons h' => exact Or.inr ⟨rfl, h'⟩
    | rel h' => exact Or.inl h'
  · intro h
    rcases h with h | ⟨rfl, h⟩
    · exact List.Lex.rel h
    · exact List.Lex.cons h

theorem lexCompare_iff_Lex [LinearOrder α] (xs : List α) :
    ∀ ys : List α, (lexCompare xs ys = true ↔ List.Lex (· < ·) xs ys) := by
  induction xs with
  | nil =>
    intro ys
    cases ys with
    | nil => exact ⟨fun h => (nomatch h), fun h => (nomatch h)⟩
    | cons y ys => exact ⟨fun _ => List.Lex.nil, fun _ => rfl⟩
  | cons x xs ih =>
    intro ys
    cases ys with
    | nil => exact ⟨fun h => (nomatch h), fun h => (nomatch h)⟩
    | cons y ys =>
      simp only [lexCompare]
      rw [lex_cons_cons_iff]
      rcases lt_trichotomy x y with hlt | heq | hgt
      · rw [if_pos hlt]
        simp [hlt]
      · subst heq
        rw [if_neg (lt_irrefl x), if_neg (lt_irrefl x), ih ys]
        simp [lt_irrefl]
      · rw [if_neg (asymm hgt), if_pos hgt]
        constructor
        · intro h; simp at h
        · rintro (h | ⟨rfl, h⟩)
          · exact absurd h (asymm hgt)
          · exact absurd hgt (lt_irrefl x)

end SingleLinkedList

namespace SingleLinkedList

variable {α : Type}

/-! ### Claim theorems -/

/-- C1: constructing a `SingleLinkedList` from any finite input sequence
with the initializer-list constructor and then iterating from `begin()` to
`end()` yields exactly the input sequence in the same order, and
`GetSize()` equals the input length. -/
theorem initList_preserves_sequence (xs : List α) :
    toList (ofInitList xs) = xs ∧ GetSize (ofInitList xs) = xs.length := by
  rw [ofInitList_eq]
  exact ⟨rfl, rfl⟩

/-- C7: `Reverse` applied twice yields the original list (involution on
the element sequence), and a single `Reverse` leaves the size unchanged. -/
theorem reverse_involution (l : SingleLinkedList α) :
    Reverse (Reverse l) = l ∧ GetSize (Reverse l) = GetSize l := by
  cases l with
  | mk c s =>
    refine ⟨?_, rfl⟩
    simp [Reverse, reverseLoop_eq]

/-- C9: the copy constructor produces a list with the same size and the
same element sequence, in the same order (built front-to-back through the
tail pointer, not reversed). -/
theorem copyCtor_preserves (l : SingleLinkedList α) :
    toList (copyCtor l) = toList l ∧ GetSize (copyCtor l) = GetSize l :=
  ⟨copyChain_eq l.head_, rfl⟩

/-- C10: `PopFront` on an empty list (no reachable nodes, size 0) is a
silent no-op: the function is total (no assert), the list is unchanged,
the element sequence stays empty and the size stays 0. -/
theorem popFront_empty_noop (l : SingleLinkedList α)
    (hchain : l.head_ = []) (hsize : l.size_ = 0) :
    PopFront l = l ∧ toList (PopFront l) = [] ∧ GetSize (PopFront l) = 0 := by
  cases l with
  | mk c s =>
    simp only at hchain hsize
    subst hchain
    subst hsize
    exact ⟨rfl, rfl, rfl⟩

/-- C10 witness: the concrete empty list. -/
theorem popFront_empty_noop_witness :
    PopFront (SingleLinkedList.mk ([] : List Int) 0) =
        SingleLinkedList.mk ([] : List Int) 0 ∧
      toList (PopFront (SingleLinkedList.mk ([] : List Int) 0)) = [] ∧
      GetSize (PopFront (SingleLinkedList.mk ([] : List Int) 0)) = 0 :=
  popFront_empty_noop (SingleLinkedList.mk ([] : List Int) 0) rfl rfl

/-- C3 counterexample: the claim says popping from an empty list fails
fast (asserts).  In the code `PopFront` is guarded by
`if (head_.next_node != nullptr)` and is `noexcept`: on the concrete empty
list it runs to completion and returns the state unchanged — a silent
no-op, not a failure. -/
theorem popFront_empty_does_not_fail :
    PopFront (SingleLinkedList.mk ([] : List Int) 0) =
      SingleLinkedList.mk ([] : List Int) 0 :=
  rfl

/-- C3 amended: on every non-empty list `PopFront` releases the first
node, relinks the sentinel to the former second node and decrements the
size; on an empty list it is a silent no-op (the code checks the link and
returns, it does not assert). -/
theorem popFront_behavior (l : SingleLinkedList α) :
    (l.head_ ≠ [] →
      toList (PopFront l) = (toList l).tail ∧
      GetSize (PopFront l) = GetSize l - 1) ∧
    (l.head_ = [] → PopFront l = l) := by
  cases l with
  | mk c s =>
    cases c with
    | nil => exact ⟨fun h => absurd rfl h, fun _ => rfl⟩
    | cons x rest =>
      refine ⟨fun _ => ⟨rfl, rfl⟩, fun h => ?_⟩
      simp at h

/-- C3 witness: `PopFront` on the concrete list `[7, 8]` with size 2. -/
theorem popFront_behavior_witness :
    toList (PopFront (SingleLinkedList.mk ([7, 8] : List Int) 2)) = [8] ∧
    GetSize (PopFront (SingleLinkedList.mk ([7, 8] : List Int) 2)) = 1 :=
  (popFront_behavior (SingleLinkedList.mk ([7, 8] : List Int) 2)).1
    (by decide)

end SingleLinkedList

namespace SingleLinkedList

variable {α : Type}

/-- C4: for every valid (non-null, in-list) position `p`: if the
referenced node has a successor (`p < length`), that successor is unlinked
(the chain becomes `take p ++ drop (p+1)`), the size is decremented, and
the returned iterator references the new successor when it exists and is
the end iterator otherwise; if the referenced node has no successor
(`p = length`), the call leaves the list unchanged and returns the end
iterator. -/
theorem eraseAfter_behavior (l : SingleLinkedList α) (p : Nat)
    (hp : p ≤ (toList l).length) :
    (p < (toList l).length →
      toList (EraseAfter l p).1 =
          (toList l).take p ++ (toList l).drop (p + 1) ∧
        GetSize (EraseAfter l p).1 = GetSize l - 1 ∧
        (EraseAfter l p).2 =
          (if p + 1 ≤ (toList (EraseAfter l p).1).length then some (p + 1)
           else none)) ∧
    (p = (toList l).length →
      (EraseAfter l p).1 = l ∧ (EraseAfter l p).2 = none) := by
  constructor
  · intro h
    have h' : p < l.head_.length := h
    refine ⟨?_, ?_, ?_⟩
    · show (EraseAfter l p).1.head_ = _
      simp only [EraseAfter, if_pos h']
      exact eraseAfterChain_eq_take_drop l.head_ p h'
    · show (EraseAfter l p).1.size_ = l.size_ - 1
      simp [EraseAfter, if_pos h']
    · have h2 : p + 1 ≤ l.head_.length := h'
      show (EraseAfter l p).2 = _
      simp only [EraseAfter, toList, iterAfter, Nat.lt_iff_add_one_le,
        if_pos h2]
  · intro h
    have hnot : ¬p < l.head_.length := by
      have h' : p = l.head_.length := h
      omega
    refine ⟨?_, ?_⟩
    · show (EraseAfter l p).1 = l
      simp [EraseAfter, if_neg hnot]
    · show (EraseAfter l p).2 = none
      simp [EraseAfter, if_neg hnot, iterAfter]

/-- C4 witness: erasing after the sentinel (`p = 0`) of the concrete list
`[5, 6]`, and erasing after its last node (`p = 2`). -/
theorem eraseAfter_behavior_witness :
    (toList (EraseAfter (SingleLinkedList.mk ([5, 6] : List Int) 2) 0).1 =
        [6] ∧
      GetSize (EraseAfter (SingleLinkedList.mk ([5, 6] : List Int) 2) 0).1 =
        1 ∧
      (EraseAfter (SingleLinkedList.mk ([5, 6] : List Int) 2) 0).2 =
        some 1) ∧
    ((EraseAfter (SingleLinkedList.mk ([5, 6] : List Int) 2) 2).1 =
        SingleLinkedList.mk ([5, 6] : List Int) 2 ∧
      (EraseAfter (SingleLinkedList.mk ([5, 6] : List Int) 2) 2).2 = none) := by
  constructor
  · have h :=
      (eraseAfter_behavior (SingleLinkedList.mk ([5, 6] : List Int) 2) 0
        (by decide)).1 (by decide)
    exact ⟨h.1, h.2.1, h.2.2⟩
  · exact
      (eraseAfter_behavior (SingleLinkedList.mk ([5, 6] : List Int) 2) 2
        (by decide)).2 (by decide)

/-- C8: for every list and every valid position in it, `InsertAfter` of a
value followed by `EraseAfter` at the same position restores the original
list — same element sequence and same size. -/
theorem insert_erase_roundtrip (l : SingleLinkedList α) (p : Nat) (v : α)
    (hp : p ≤ (toList l).length) :
    (EraseAfter (InsertAfter l p v).1 p).1 = l := by
  cases l with
  | mk c s =>
    have hp' : p ≤ c.length := hp
    have hlen : (insertAfterChain c p v).length = c.length + 1 :=
      insertAfterChain_length c p v hp'
    have hlt : p < (insertAfterChain c p v).length := by omega
    simp only [InsertAfter, EraseAfter, if_pos hlt]
    rw [mk.injEq]
    exact ⟨eraseAfterChain_insertAfterChain c p v hp', rfl⟩

/-- C8 witness: inserting 9 after the first node of the concrete list
`[1, 2]` and erasing at the same position restores the list. -/
theorem insert_erase_roundtrip_witness :
    (EraseAfter (InsertAfter (SingleLinkedList.mk ([1, 2] : List Int) 2)
        1 9).1 1).1 =
      SingleLinkedList.mk ([1, 2] : List Int) 2 :=
  insert_erase_roundtrip (SingleLinkedList.mk ([1, 2] : List Int) 2) 1 9
    (by decide)

/-- C2: every operation of the public interface preserves (or, for the
constructors, establishes) the size invariant `Inv`: the cached `size_`
equals the number of real nodes reachable from the sentinel's next link. -/
theorem size_invariant_all_ops :
    (Inv (new : SingleLinkedList α)) ∧
    (∀ xs : List α, Inv (ofInitList xs)) ∧
    (∀ l : SingleLinkedList α, Inv l → Inv (copyCtor l)) ∧
    (∀ l rhs : SingleLinkedList α, Inv rhs → Inv (operatorAssign l rhs)) ∧
    (∀ (l : SingleLinkedList α) (v : α), Inv l → Inv (PushFront l v)) ∧
    (∀ l : SingleLinkedList α, Inv l → Inv (PopFront l)) ∧
    (∀ (l : SingleLinkedList α) (p : Nat) (v : α),
      Inv l → p ≤ l.head_.length → Inv (InsertAfter l p v).1) ∧
    (∀ (l : SingleLinkedList α) (p : Nat), Inv l → Inv (EraseAfter l p).1) ∧
    (∀ l : SingleLinkedList α, Inv l → Inv (Reverse l)) ∧
    (∀ l : SingleLinkedList α, Inv (Clear l)) ∧
    (∀ a b : SingleLinkedList α,
      Inv a → Inv b → Inv (swap a b).1 ∧ Inv (swap a b).2) := by
  refine ⟨rfl, ?_, ?_, ?_, ?_, ?_, ?_, ?_, ?_, ?_, ?_⟩
  · intro xs
    rw [ofInitList_eq]
    rfl
  · intro l h
    show l.size_ = (copyChain l.head_).length
    rw [copyChain_eq]
    exact h
  · intro l rhs h
    show rhs.size_ = (copyChain rhs.head_).length
    rw [copyChain_eq]
    exact h
  · intro l v h
    have h' : l.size_ = l.head_.length := h
    show l.size_ + 1 = l.head_.length + 1
    omega
  · intro l h
    cases l with
    | mk c s =>
      cases c with
      | nil => exact h
      | cons x rest =>
        have h' : s = rest.length + 1 := by simpa [Inv] using h
        show s - 1 = rest.length
        omega
  · intro l p v h hp
    have h' : l.size_ = l.head_.length := h
    show l.size_ + 1 = (insertAfterChain l.head_ p v).length
    rw [insertAfterChain_length l.head_ p v hp]
    omega
  · intro l p h
    by_cases hlt : p < l.head_.length
    · have hlen := eraseAfterChain_length l.head_ p hlt
      simp only [EraseAfter, if_pos hlt]
      show l.size_ - 1 = (eraseAfterChain l.head_ p).length
      rw [hlen]
      have : l.size_ = l.head_.length := h
      omega
    · simpa [EraseAfter, if_neg hlt] using h
  · intro l h
    show l.size_ = (reverseLoop l.head_ []).length
    rw [reverseLoop_eq]
    simpa using h
  · intro l
    rfl
  · intro a b ha hb
    exact ⟨hb, ha⟩

/-- C2 witness: the hypothesis-bearing conjuncts instantiated on concrete
lists over `Int`. -/
theorem size_invariant_all_ops_witness :
    Inv (copyCtor (SingleLinkedList.mk ([3] : List Int) 1)) ∧
    Inv (operatorAssign (SingleLinkedList.mk ([] : List Int) 0)
      (SingleLinkedList.mk ([3] : List Int) 1)) ∧
    Inv (PushFront (SingleLinkedList.mk ([3] : List Int) 1) 4) ∧
    Inv (PopFront (SingleLinkedList.mk ([3] : List Int) 1)) ∧
    Inv (InsertAfter (SingleLinkedList.mk ([3] : List Int) 1) 0 4).1 ∧
    Inv (EraseAfter (SingleLinkedList.mk ([3] : List Int) 1) 0).1 ∧
    Inv (Reverse (SingleLinkedList.mk ([3] : List Int) 1)) ∧
    Inv (swap (SingleLinkedList.mk ([3] : List Int) 1)
      (SingleLinkedList.mk ([] : List Int) 0)).1 :=
  ⟨size_invariant_all_ops.2.2.1 _ (by decide),
   size_invariant_all_ops.2.2.2.1 _ _ (by decide),
   size_invariant_all_ops.2.2.2.2.1 _ 4 (by decide),
   size_invariant_all_ops.2.2.2.2.2.1 _ (by decide),
   size_invariant_all_ops.2.2.2.2.2.2.1 _ 0 4 (by decide) (by decide),
   size_invariant_all_ops.2.2.2.2.2.2.2.1 _ 0 (by decide),
   size_invariant_all_ops.2.2.2.2.2.2.2.2.1 _ (by decide),
   (size_invariant_all_ops.2.2.2.2.2.2.2.2.2.2 _ _ (by decide)
     (by decide)).1⟩

end SingleLinkedList

namespace SingleLinkedList

variable {α : Type}

/-- C5: for every pair of (well-formed) lists, `operator==` returns true
iff the two lists have the same size and elementwise-equal values in the
same order, and `operator!=` is its logical negation. -/
theorem equality_operators [DecidableEq α] (l1 l2 : SingleLinkedList α)
    (h1 : Inv l1) (h2 : Inv l2) :
    (operatorEq l1 l2 = true ↔
      (GetSize l1 = GetSize l2 ∧ toList l1 = toList l2)) ∧
    operatorNe l1 l2 = !(operatorEq l1 l2) := by
  refine ⟨?_, rfl⟩
  have h1' : l1.size_ = l1.head_.length := h1
  have h2' : l2.size_ = l2.head_.length := h2
  by_cases hs : GetSize l1 = GetSize l2
  · have hlen : l1.head_.length = l2.head_.length := by
      have : l1.size_ = l2.size_ := hs
      omega
    have hloop := chainEqLoop_iff l1.head_ l2.head_ hlen
    constructor
    · intro h
      refine ⟨hs, ?_⟩
      apply hloop.mp
      simpa [operatorEq, hs] using h
    · intro h
      simp [operatorEq, hs, hloop.mpr h.2]
  · constructor
    · intro h
      have hfalse : operatorEq l1 l2 = false := by simp [operatorEq, hs]
      rw [hfalse] at h
      simp at h
    · intro h
      exact absurd h.1 hs

/-- C5 witness: the concrete lists `[1, 2]` and `[1, 2]`, and the
negation operator on them. -/
theorem equality_operators_witness :
    (operatorEq (SingleLinkedList.mk ([1, 2] : List Int) 2)
        (SingleLinkedList.mk ([1, 2] : List Int) 2) = true ↔
      (GetSize (SingleLinkedList.mk ([1, 2] : List Int) 2) =
          GetSize (SingleLinkedList.mk ([1, 2] : List Int) 2) ∧
        toList (SingleLinkedList.mk ([1, 2] : List Int) 2) =
          toList (SingleLinkedList.mk ([1, 2] : List Int) 2))) ∧
    operatorNe (SingleLinkedList.mk ([1, 2] : List Int) 2)
        (SingleLinkedList.mk ([1, 2] : List Int) 2) =
      !(operatorEq (SingleLinkedList.mk ([1, 2] : List Int) 2)
        (SingleLinkedList.mk ([1, 2] : List Int) 2)) :=
  equality_operators (SingleLinkedList.mk ([1, 2] : List Int) 2)
    (SingleLinkedList.mk ([1, 2] : List Int) 2) (by decide) (by decide)

/-- C6: `operator<` is lexicographic comparison over the element
sequences (strict prefix is less, otherwise the first differing element
decides — the `List.Lex (· < ·)` order); `operator<=`, `operator>` and
`operator>=` are derived from `operator<` and its argument-swapped form;
and on the concrete lists, `[1, 2] < [1, 2, 3]` and `[1, 3] > [1, 2, 3]`. -/
theorem ordering_operators :
    (∀ (β : Type) [LinearOrder β] (l1 l2 : SingleLinkedList β),
      operatorLt l1 l2 = true ↔
        List.Lex (· < ·) (toList l1) (toList l2)) ∧
    (∀ (β : Type) [LinearOrder β] (l1 l2 : SingleLinkedList β),
      operatorLe l1 l2 = !(operatorLt l2 l1) ∧
      operatorGt l1 l2 = operatorLt l2 l1 ∧
      operatorGe l1 l2 = !(operatorLt l1 l2)) ∧
    operatorLt (ofInitList ([1, 2] : List Int))
      (ofInitList ([1, 2, 3] : List Int)) = true ∧
    operatorGt (ofInitList ([1, 3] : List Int))
      (ofInitList ([1, 2, 3] : List Int)) = true :=
  ⟨fun β _ l1 l2 => lexCompare_iff_Lex l1.head_ l2.head_,
   fun β _ l1 l2 => ⟨rfl, rfl, rfl⟩,
   by decide, by decide⟩

end SingleLinkedList
